import Mathlib

/-!
Verification of the text-chunking and pipeline-orchestration logic of a
retrieval script (`demo1.py`).  Strings are modelled as `List Char`;
Python's `str.split(' ')`, `str.split()` and `str.strip()` are embedded
faithfully (splitting keeps empty fields, stripping removes ASCII
whitespace from both ends).  External services (the embedding model and
the vector store) are modelled as opaque parameters and records of the
calls made to them.
-/

namespace Vidhyarthi

/-- ASCII whitespace as recognised by Python's `str.strip()` / `str.split()`. -/
def isPyWhitespace (c : Char) : Bool :=
  c == ' ' || c == '\t' || c == '\n' || c == '\r' || c == '\x0b' || c == '\x0c'

/-- Split a list at every element satisfying `p`, keeping empty fields:
Python's `s.split(sep)` for a one-character separator. -/
def pySplit (p : Char → Bool) : List Char → List (List Char)
  | [] => [[]]
  | a :: t =>
    if p a then [] :: pySplit p t
    else
      match pySplit p t with
      | [] => [[a]]
      | w :: ws => (a :: w) :: ws

/-- Python's `s.strip()`: remove leading and trailing whitespace. -/
def pyStrip (s : List Char) : List Char :=
  ((s.dropWhile isPyWhitespace).reverse.dropWhile isPyWhitespace).reverse

/-- Python's `s.split()` with no argument: maximal runs of non-whitespace,
i.e. the whitespace-normalized word sequence of `s`. -/
def pyWords (s : List Char) : List (List Char) :=
  (pySplit isPyWhitespace s).filter (fun w => !w.isEmpty)

/-- The loop of `chunk_text`: fold the word list through the running
buffer `chunk`, emitting `chunk.strip()` whenever the next word does not
fit, and emitting the final non-empty buffer at the end. -/
def chunkGo (chunk_size : Nat) : List (List Char) → List Char → List (List Char)
  | [], chunk => if chunk.isEmpty then [] else [pyStrip chunk]
  | w :: ws, chunk =>
    if chunk.length + w.length ≤ chunk_size then
      chunkGo chunk_size ws (chunk ++ w ++ [' '])
    else
      pyStrip chunk :: chunkGo chunk_size ws (w ++ [' '])

/-- The function `chunk_text` from `demo1.py`: split on single spaces, then greedily
accumulate words into chunks of at most `chunk_size` characters. -/
def chunk_text (text : List Char) (chunk_size : Nat := 512) : List (List Char) :=
  chunkGo chunk_size (pySplit (fun c => c == ' ') text) []

/-- Python's `' '.join(chunks)`. -/
def joinSpace : List (List Char) → List Char
  | [] => []
  | [x] => x
  | x :: y :: xs => x ++ ' ' :: joinSpace (y :: xs)

/-! ### Pipeline embedding -/

/-- A vector record as upserted to the store:
`{id, values: embedding, metadata: {text: chunk}}`.  The embedding
model is external, so embedding values are opaque integers here. -/
structure VectorRecord where
  id : List Char
  values : List Int
  text : List Char
  deriving DecidableEq, Repr

/-- The function `store_in_pinecone` builds the record passed to `index.upsert`. -/
def store_in_pinecone (embeddings : List Int) (chunk : List Char)
    (id : List Char) : VectorRecord :=
  ⟨id, embeddings, chunk⟩

/-- The record id `f"{file_name}-chunk-{n}"` (`n` rendered in decimal). -/
def chunkId (file_name : List Char) (n : Nat) : List Char :=
  file_name ++ ('-' :: 'c' :: 'h' :: 'u' :: 'n' :: 'k' :: '-' :: []) ++
    Nat.toDigits 10 n

/-- The function `process_text`: chunk the text (default size 512), embed each chunk
and upsert it under id `{file_name}-chunk-{i + 1}` where `i` is the
0-based enumeration position.  The embedding model is an opaque
parameter `emb`; no emptiness check is performed on its result. -/
def process_text (emb : List Char → List Int) (text file_name : List Char) :
    List VectorRecord :=
  (chunk_text text 512).enum.map fun p =>
    store_in_pinecone (emb p.2) p.2 (chunkId file_name (p.1 + 1))

/-- Python's `pathlib.Path(name).suffix`: the extension from the last dot; empty
when the dot is absent, leading, or trailing. -/
def pathSuffix (name : List Char) : List Char :=
  match name.reverse.findIdx? (fun c => c == '.') with
  | none => []
  | some j =>
    let i := name.length - 1 - j
    if 0 < i ∧ i < name.length - 1 then name.drop i else []

/-- The observable outcome of `process_directory`: names printed with
"Processing file", names whose read raised ("Error reading file"), and
the records upserted, in order. -/
structure DirOutcome where
  processed : List (List Char)
  errors : List (List Char)
  records : List VectorRecord
  deriving DecidableEq, Repr

/-- The function `process_directory`: each directory entry is a name together with
`some` content (readable) or `none` (the read raises).  Only entries
whose `pathlib` suffix is exactly `.txt` are opened; a failed read is
logged and the loop continues; other entries are passed over silently. -/
def process_directory (emb : List Char → List Int)
    (files : List (List Char × Option (List Char))) : DirOutcome :=
  match files with
  | [] => ⟨[], [], []⟩
  | (name, content) :: rest =>
    let tail := process_directory emb rest
    if pathSuffix name = '.' :: 't' :: 'x' :: 't' :: [] then
      match content with
      | some data =>
        ⟨name :: tail.processed, tail.errors,
          process_text emb data name ++ tail.records⟩
      | none => ⟨tail.processed, name :: tail.errors, tail.records⟩
    else tail

/-- Outcome of the module-level index-provisioning block. -/
structure ProvisionOutcome where
  createCalled : Bool
  logged : Bool
  exitCode : Option Nat
  deriving DecidableEq, Repr

/-- The one-time provisioning block: list the indexes (the call may
raise), create the index when absent (the call may raise); any raise is
caught, logged, and the process exits with status 1. -/
def provisionIndex (existing : List (List Char)) (index_name : List Char)
    (listRaises createRaises : Bool) : ProvisionOutcome :=
  if listRaises then ⟨false, true, some 1⟩
  else if index_name ∈ existing then ⟨false, false, none⟩
  else if createRaises then ⟨true, true, some 1⟩
  else ⟨true, false, none⟩

/-- The script's top level: provisioning runs at module load, before any
directory processing; a provisioning exit prevents all file processing. -/
def runScript (emb : List Char → List Int) (existing : List (List Char))
    (index_name : List Char) (listRaises createRaises : Bool)
    (files : List (List Char × Option (List Char))) : Option Nat × DirOutcome :=
  match (provisionIndex existing index_name listRaises createRaises).exitCode with
  | some c => (some c, ⟨[], [], []⟩)
  | none => (none, process_directory emb files)

/-- What `search_in_pinecone` does with the query embedding: report the
failure without querying the store when it is empty, otherwise query the
store with it. -/
inductive SearchOutcome where
  | failedEmbedding : SearchOutcome
  | queried : List Int → SearchOutcome
  deriving DecidableEq, Repr

def search_in_pinecone (emb : List Char → List Int) (query : List Char) :
    SearchOutcome :=
  let embeddings := emb query
  if embeddings.length = 0 then SearchOutcome.failedEmbedding
  else SearchOutcome.queried embeddings

/-! ### Basic lemmas about the embedded Python string operations -/

theorem pySplit_ne_nil (p : Char → Bool) (l : List Char) : pySplit p l ≠ [] := by
  induction l with
  | nil => simp [pySplit]
  | cons a t ih =>
    by_cases h : p a = true
    · simp [pySplit, h]
    · replace h : p a = false := by revert h; cases p a <;> simp
      cases hs : pySplit p t with
      | nil => exact absurd hs ih
      | cons w ws => simp [pySplit, h, hs]

theorem pySplit_cons_of_pos (p : Char → Bool) (a : Char) (t : List Char)
    (h : p a = true) : pySplit p (a :: t) = [] :: pySplit p t := by
  simp [pySplit, h]

theorem pySplit_cons_of_neg (p : Char → Bool) (a : Char) (t : List Char)
    (h : p a = false) :
    ∃ w ws, pySplit p t = w :: ws ∧ pySplit p (a :: t) = (a :: w) :: ws := by
  obtain ⟨w, ws, hw⟩ : ∃ w ws, pySplit p t = w :: ws := by
    cases hs : pySplit p t with
    | nil => exact absurd hs (pySplit_ne_nil p t)
    | cons w ws => exact ⟨w, ws, rfl⟩
  exact ⟨w, ws, hw, by simp [pySplit, h, hw]⟩

/-- A separator element splits a concatenation into independent splits. -/
theorem pySplit_append_sep (p : Char → Bool) (c : Char) (hc : p c = true)
    (a b : List Char) : pySplit p (a ++ c :: b) = pySplit p a ++ pySplit p b := by
  induction a with
  | nil => rw [List.nil_append, pySplit_cons_of_pos p c b hc]; rfl
  | cons d a' ih =>
    by_cases hd : p d = true
    · rw [List.cons_append, pySplit_cons_of_pos p d _ hd,
        pySplit_cons_of_pos p d a' hd, ih, List.cons_append]
    · replace hd : p d = false := by revert hd; cases p d <;> simp
      obtain ⟨w, ws, hw, hsplit⟩ := pySplit_cons_of_neg p d (a' ++ c :: b) hd
      obtain ⟨w', ws', hw', hsplit'⟩ := pySplit_cons_of_neg p d a' hd
      rw [List.cons_append, hsplit, hsplit']
      rw [ih, hw'] at hw
      cases hw
      simp

/-- Every field produced by `pySplit p` contains no element satisfying `p`. -/
theorem pySplit_mem_no_sep (p : Char → Bool) (l : List Char) :
    ∀ w ∈ pySplit p l, ∀ c ∈ w, p c = false := by
  induction l with
  | nil => simp [pySplit]
  | cons a t ih =>
    by_cases h : p a = true
    · rw [pySplit_cons_of_pos p a t h]
      intro w hw
      rcases List.mem_cons.mp hw with h1 | h1
      · simp [h1]
      · exact ih w h1
    · replace h : p a = false := by revert h; cases p a <;> simp
      obtain ⟨w, ws, hw, hsplit⟩ := pySplit_cons_of_neg p a t h
      rw [hsplit]
      intro v hv
      rcases List.mem_cons.mp hv with h1 | h1
      · subst h1
        intro c hc
        rcases List.mem_cons.mp hc with h2 | h2
        · subst h2; exact h
        · exact ih w (by rw [hw]; exact List.mem_cons_self w ws) c h2
      · exact ih v (by rw [hw]; exact List.mem_cons_of_mem w h1)

theorem dropWhile_idem (p : Char → Bool) (l : List Char) :
    (l.dropWhile p).dropWhile p = l.dropWhile p := by
  induction l with
  | nil => simp
  | cons a t ih =>
    by_cases h : p a = true
    · simpa [List.dropWhile_cons, h] using ih
    · replace h : p a = false := by revert h; cases p a <;> simp
      simp [List.dropWhile_cons, h]

theorem dropWhile_append_eq (p : Char → Bool) (a b : List Char) :
    (a ++ b).dropWhile p =
      if a.dropWhile p = [] then b.dropWhile p else a.dropWhile p ++ b := by
  induction a with
  | nil => simp
  | cons d a' ih =>
    by_cases h : p d = true
    · simpa [List.dropWhile_cons, h] using ih
    · replace h : p d = false := by revert h; cases p d <;> simp
      simp [List.dropWhile_cons, h]

theorem pyStrip_nil : pyStrip [] = [] := rfl

theorem mem_pyStrip (a : Char) (s : List Char) (h : a ∈ pyStrip s) : a ∈ s := by
  unfold pyStrip at h
  rw [List.mem_reverse] at h
  have h1 := List.dropWhile_sublist (p := isPyWhitespace)
    (l := (s.dropWhile isPyWhitespace).reverse) |>.subset h
  rw [List.mem_reverse] at h1
  exact List.dropWhile_sublist (p := isPyWhitespace) (l := s) |>.subset h1

theorem pyStrip_length_le (s : List Char) : (pyStrip s).length ≤ s.length := by
  unfold pyStrip
  rw [List.length_reverse]
  calc ((s.dropWhile isPyWhitespace).reverse.dropWhile isPyWhitespace).length
      ≤ (s.dropWhile isPyWhitespace).reverse.length :=
        List.Sublist.length_le (List.dropWhile_sublist _)
    _ = (s.dropWhile isPyWhitespace).length := List.length_reverse _
    _ ≤ s.length := List.Sublist.length_le (List.dropWhile_sublist _)

/-- Stripping discards a trailing whitespace character. -/
theorem pyStrip_append_ws (w : List Char) (c : Char) (hc : isPyWhitespace c = true) :
    pyStrip (w ++ [c]) = pyStrip w := by
  unfold pyStrip
  rw [dropWhile_append_eq]
  by_cases h : w.dropWhile isPyWhitespace = []
  · simp [h, List.dropWhile_cons, hc]
  · rw [if_neg h]
    simp [List.reverse_append, List.dropWhile_cons, hc]

theorem pyWords_nil : pyWords [] = [] := rfl

theorem pyWords_cons_ws (c : Char) (t : List Char) (hc : isPyWhitespace c = true) :
    pyWords (c :: t) = pyWords t := by
  unfold pyWords
  rw [pySplit_cons_of_pos _ c t hc]
  simp

theorem pyWords_append_sep (c : Char) (hc : isPyWhitespace c = true)
    (a b : List Char) : pyWords (a ++ c :: b) = pyWords a ++ pyWords b := by
  unfold pyWords
  rw [pySplit_append_sep _ c hc, List.filter_append]

theorem pyWords_append_ws (s : List Char) (c : Char)
    (hc : isPyWhitespace c = true) : pyWords (s ++ [c]) = pyWords s := by
  have h := pyWords_append_sep c hc s []
  simpa [pyWords_nil] using h

theorem pyWords_dropWhile (s : List Char) :
    pyWords (s.dropWhile isPyWhitespace) = pyWords s := by
  induction s with
  | nil => rfl
  | cons c t ih =>
    by_cases hc : isPyWhitespace c = true
    · rw [List.dropWhile_cons_of_pos hc, ih, pyWords_cons_ws c t hc]
    · rw [List.dropWhile_cons_of_neg hc]

theorem pyWords_rstrip (r : List Char) :
    pyWords ((r.dropWhile isPyWhitespace).reverse) = pyWords r.reverse := by
  induction r with
  | nil => rfl
  | cons c r' ih =>
    by_cases hc : isPyWhitespace c = true
    · rw [List.dropWhile_cons_of_pos hc, ih, List.reverse_cons,
        pyWords_append_ws r'.reverse c hc]
    · rw [List.dropWhile_cons_of_neg hc]

/-- Whitespace-normalization is invariant under stripping. -/
theorem pyWords_pyStrip (s : List Char) : pyWords (pyStrip s) = pyWords s := by
  unfold pyStrip
  rw [pyWords_rstrip (s.dropWhile isPyWhitespace).reverse, List.reverse_reverse,
    pyWords_dropWhile]

theorem joinSpace_cons_head (c : Char) (w : List Char) (ws : List (List Char)) :
    joinSpace ((c :: w) :: ws) = c :: joinSpace (w :: ws) := by
  cases ws <;> rfl

theorem pyWords_joinSpace_cons (x : List Char) (xs : List (List Char)) :
    pyWords (joinSpace (x :: xs)) = pyWords x ++ pyWords (joinSpace xs) := by
  cases xs with
  | nil => simp [joinSpace, pyWords_nil]
  | cons y ys =>
    rw [show joinSpace (x :: y :: ys) = x ++ ' ' :: joinSpace (y :: ys) from rfl,
      pyWords_append_sep ' ' (by decide) x (joinSpace (y :: ys))]

/-- Re-joining the space-split fields with single spaces gives back the text. -/
theorem joinSpace_pySplit (s : List Char) :
    joinSpace (pySplit (fun c => c == ' ') s) = s := by
  induction s with
  | nil => rfl
  | cons c t ih =>
    by_cases hc : (c == ' ') = true
    · rw [pySplit_cons_of_pos _ c t hc]
      obtain ⟨w, ws, hw⟩ : ∃ w ws, pySplit (fun c => c == ' ') t = w :: ws := by
        cases hs : pySplit (fun c => c == ' ') t with
        | nil => exact absurd hs (pySplit_ne_nil _ t)
        | cons w ws => exact ⟨w, ws, rfl⟩
      rw [hw, show joinSpace ([] :: w :: ws) = [] ++ ' ' :: joinSpace (w :: ws) from rfl]
      rw [← hw, ih, eq_of_beq hc]
      rfl
    · replace hc : (c == ' ') = false := by revert hc; cases h : (c == ' ') <;> simp
      obtain ⟨w, ws, hw, hsplit⟩ := pySplit_cons_of_neg (fun c => c == ' ') c t hc
      rw [hsplit, joinSpace_cons_head, ← hw, ih]

/-! ### Chunker lemmas -/

theorem chunkGo_nil_eq (cs : Nat) (chunk : List Char) :
    chunkGo cs [] chunk = if chunk.isEmpty then [] else [pyStrip chunk] := rfl

theorem chunkGo_cons_eq (cs : Nat) (w : List Char) (ws : List (List Char))
    (chunk : List Char) :
    chunkGo cs (w :: ws) chunk =
      if chunk.length + w.length ≤ cs then chunkGo cs ws (chunk ++ w ++ [' '])
      else pyStrip chunk :: chunkGo cs ws (w ++ [' ']) := rfl

/-- Invariant of the chunking loop: the words seen so far are preserved.
The buffer is empty or ends with the separator space. -/
theorem chunkGo_words (cs : Nat) (ws : List (List Char)) :
    ∀ chunk : List Char, (chunk = [] ∨ ∃ c', chunk = c' ++ [' ']) →
    pyWords (joinSpace (chunkGo cs ws chunk)) =
      pyWords chunk ++ pyWords (joinSpace ws) := by
  induction ws with
  | nil =>
    intro chunk _
    rw [chunkGo_nil_eq]
    by_cases h : chunk.isEmpty = true
    · rw [if_pos h, List.isEmpty_iff.mp h]
      rfl
    · rw [if_neg h]
      simp [joinSpace, pyWords_nil, pyWords_pyStrip]
  | cons w ws' ih =>
    intro chunk hinv
    rw [chunkGo_cons_eq, pyWords_joinSpace_cons w ws']
    have hnorm : ∀ c' : List Char,
        pyWords ((c' ++ [' ']) ++ w ++ [' ']) = pyWords (c' ++ [' ']) ++ pyWords w := by
      intro c'
      have h1 : (c' ++ [' ']) ++ w ++ [' '] = c' ++ ' ' :: (w ++ [' ']) := by simp
      rw [h1, pyWords_append_sep ' ' (by decide) c' (w ++ [' ']),
        pyWords_append_ws w ' ' (by decide), pyWords_append_ws c' ' ' (by decide)]
    by_cases hle : chunk.length + w.length ≤ cs
    · rw [if_pos hle, ih (chunk ++ w ++ [' ']) (Or.inr ⟨chunk ++ w, by simp⟩)]
      rcases hinv with h0 | ⟨c', hc'⟩
      · subst h0
        rw [List.nil_append, pyWords_append_ws w ' ' (by decide), pyWords_nil,
          List.nil_append]
      · subst hc'
        rw [hnorm c', List.append_assoc]
    · rw [if_neg hle, pyWords_joinSpace_cons (pyStrip chunk) _,
        ih (w ++ [' ']) (Or.inr ⟨w, rfl⟩), pyWords_pyStrip,
        pyWords_append_ws w ' ' (by decide)]

/-- Every chunk the loop emits is the strip of some buffer. -/
theorem chunkGo_emitted_stripped (cs : Nat) (ws : List (List Char)) :
    ∀ chunk c, c ∈ chunkGo cs ws chunk → ∃ s, c = pyStrip s := by
  induction ws with
  | nil =>
    intro chunk c hc
    rw [chunkGo_nil_eq] at hc
    by_cases h : chunk.isEmpty = true
    · rw [if_pos h] at hc
      exact absurd hc (List.not_mem_nil c)
    · rw [if_neg h] at hc
      rcases List.mem_singleton.mp hc with h1
      exact ⟨chunk, h1⟩
  | cons w ws' ih =>
    intro chunk c hc
    rw [chunkGo_cons_eq] at hc
    by_cases hle : chunk.length + w.length ≤ cs
    · rw [if_pos hle] at hc
      exact ih _ c hc
    · rw [if_neg hle] at hc
      rcases List.mem_cons.mp hc with h1 | h1
      · exact ⟨chunk, h1⟩
      · exact ih _ c h1

/-- A buffer satisfying the loop invariant strips to a chunk that is
within the bound or is a single space-free word. -/
theorem emit_ok (cs : Nat) (chunk : List Char)
    (hinv : chunk = [] ∨ (chunk.length ≤ cs + 1 ∧ ∃ c', chunk = c' ++ [' ']) ∨
      (∃ w, chunk = w ++ [' '] ∧ ' ' ∉ w)) :
    (pyStrip chunk).length ≤ cs ∨ ' ' ∉ pyStrip chunk := by
  rcases hinv with h0 | ⟨hlen, c', hc'⟩ | ⟨w, hw, hsp⟩
  · subst h0
    exact Or.inl (by simp [pyStrip_nil])
  · subst hc'
    left
    rw [pyStrip_append_ws c' ' ' (by decide)]
    have h1 : c'.length + 1 ≤ cs + 1 := by simpa using hlen
    exact le_trans (pyStrip_length_le c') (Nat.le_of_succ_le_succ h1)
  · subst hw
    right
    rw [pyStrip_append_ws w ' ' (by decide)]
    intro hmem
    exact hsp (mem_pyStrip ' ' w hmem)

/-- Invariant of the chunking loop: every emitted chunk is within the
bound or is a single space-free (hence oversized, lone) word. -/
theorem chunkGo_length_bound (cs : Nat) (ws : List (List Char)) :
    ∀ chunk : List Char, (∀ w ∈ ws, ' ' ∉ w) →
    (chunk = [] ∨ (chunk.length ≤ cs + 1 ∧ ∃ c', chunk = c' ++ [' ']) ∨
      (∃ w, chunk = w ++ [' '] ∧ ' ' ∉ w)) →
    ∀ c ∈ chunkGo cs ws chunk, c.length ≤ cs ∨ ' ' ∉ c := by
  induction ws with
  | nil =>
    intro chunk _ hinv c hc
    rw [chunkGo_nil_eq] at hc
    by_cases h : chunk.isEmpty = true
    · rw [if_pos h] at hc
      exact absurd hc (List.not_mem_nil c)
    · rw [if_neg h] at hc
      rw [List.mem_singleton.mp hc]
      exact emit_ok cs chunk hinv
  | cons w ws' ih =>
    intro chunk hws hinv c hc
    have hw : ' ' ∉ w := hws w (List.mem_cons_self w ws')
    have hws' : ∀ v ∈ ws', ' ' ∉ v := fun v hv => hws v (List.mem_cons_of_mem w hv)
    rw [chunkGo_cons_eq] at hc
    by_cases hle : chunk.length + w.length ≤ cs
    · rw [if_pos hle] at hc
      refine ih (chunk ++ w ++ [' ']) hws' (Or.inr (Or.inl ⟨?_, chunk ++ w, by simp⟩)) c hc
      simp only [List.length_append, List.length_singleton]
      omega
    · rw [if_neg hle] at hc
      rcases List.mem_cons.mp hc with h1 | h1
      · rw [h1]
        exact emit_ok cs chunk hinv
      · exact ih (w ++ [' ']) hws' (Or.inr (Or.inr ⟨w, rfl, hw⟩)) c h1

/-- Fields of the space-split never contain a space. -/
theorem pySplit_space_no_space (s : List Char) :
    ∀ w ∈ pySplit (fun c => c == ' ') s, ' ' ∉ w := by
  intro w hw hmem
  have h := pySplit_mem_no_sep (fun c => c == ' ') s w hw ' ' hmem
  simp at h

/-! ### Strip idempotence -/

theorem dropWhile_fix_head (p : Char → Bool) (l : List Char)
    (h : l.dropWhile p = l) : l = [] ∨ ∃ a t, l = a :: t ∧ p a = false := by
  cases l with
  | nil => exact Or.inl rfl
  | cons a t =>
    right
    refine ⟨a, t, rfl, ?_⟩
    by_cases ha : p a = true
    · exfalso
      rw [List.dropWhile_cons_of_pos ha] at h
      have := congrArg List.length h
      have hlen := List.Sublist.length_le (List.dropWhile_sublist (p := p) (l := t))
      simp at this
      omega
    · revert ha; cases p a <;> simp

/-- Right-trimming yields a prefix: the original splits as the trim plus
the trimmed-away whitespace tail. -/
theorem rtrim_decomp (x : List Char) :
    x = (x.reverse.dropWhile isPyWhitespace).reverse ++
      (x.reverse.takeWhile isPyWhitespace).reverse := by
  conv_lhs => rw [← List.reverse_reverse x,
    ← List.takeWhile_append_dropWhile (p := isPyWhitespace) (l := x.reverse)]
  rw [List.reverse_append]

theorem pyStrip_idem (s : List Char) : pyStrip (pyStrip s) = pyStrip s := by
  have hL : (pyStrip s).dropWhile isPyWhitespace = pyStrip s := by
    unfold pyStrip
    set y := s.dropWhile isPyWhitespace with hy
    have hyfix : y.dropWhile isPyWhitespace = y := dropWhile_idem isPyWhitespace s
    rcases dropWhile_fix_head isPyWhitespace y hyfix with h0 | ⟨a, t, hat, ha⟩
    · rw [h0]
      rfl
    · have hdec := rtrim_decomp y
      cases hR : (y.reverse.dropWhile isPyWhitespace).reverse with
      | nil => rfl
      | cons b u =>
        rw [hR] at hdec
        rw [hat] at hdec
        have hb : b = a := by
          have := hdec.symm
          rw [List.cons_append] at this
          exact (List.cons_eq_cons.mp this).1
        rw [List.dropWhile_cons_of_neg (by rw [hb]; simp [ha])]
  have houter : pyStrip (pyStrip s) =
      (((pyStrip s).dropWhile isPyWhitespace).reverse.dropWhile isPyWhitespace).reverse :=
    rfl
  rw [houter, hL]
  conv_lhs => rw [show pyStrip s =
    ((s.dropWhile isPyWhitespace).reverse.dropWhile isPyWhitespace).reverse from rfl]
  rw [List.reverse_reverse, dropWhile_idem]
  rfl

/-! ### Claim theorems -/

/-- C1: for every input text and chunk-size limit, every chunk returned
by `chunk_text` has character length at most the limit, except that a
chunk may exceed it only when it contains no space at all, i.e. it
consists of a single (oversized) word standing alone in its own chunk. -/
theorem C1_chunk_length_bound (text : List Char) (chunk_size : Nat)
    (c : List Char) (hc : c ∈ chunk_text text chunk_size) :
    c.length ≤ chunk_size ∨ ' ' ∉ c := by
  unfold chunk_text at hc
  exact chunkGo_length_bound chunk_size _ [] (pySplit_space_no_space text)
    (Or.inl rfl) c hc

/-- Witness for C1 at text `"a b c"`, limit 3, chunk `"a b"`. -/
theorem C1_chunk_length_bound_witness :
    (['a', ' ', 'b'] : List Char).length ≤ 3 ∨
      ' ' ∉ (['a', ' ', 'b'] : List Char) :=
  C1_chunk_length_bound ['a', ' ', 'b', ' ', 'c'] 3 ['a', ' ', 'b'] (by decide)

/-- C2: joining the chunks with single spaces and whitespace-normalizing
reproduces the original text's whitespace-normalized word sequence. -/
theorem C2_rejoin_preserves_words (text : List Char) (chunk_size : Nat) :
    pyWords (joinSpace (chunk_text text chunk_size)) = pyWords text := by
  unfold chunk_text
  rw [chunkGo_words chunk_size _ [] (Or.inl rfl), pyWords_nil,
    List.nil_append, joinSpace_pySplit]

/-- C3 counterexample: on `"a b c"` with limit 3 the chunks are NOT
`["a", "b", "c"]`. -/
theorem C3_counterexample :
    chunk_text ['a', ' ', 'b', ' ', 'c'] 3 ≠ [['a'], ['b'], ['c']] := by
  decide

/-- C3 amended: on `"a b c"` with limit 3, `chunk_text` returns
`["a b", "c"]`: the buffer holds `"a "` (2 chars, trailing space
included), `2 + 1 ≤ 3` admits `"b"`, and the chunk closes before `"c"`. -/
theorem C3_amended :
    chunk_text ['a', ' ', 'b', ' ', 'c'] 3 = [['a', ' ', 'b'], ['c']] := by
  decide

/-- C4 counterexample: the empty text does NOT yield zero chunks. -/
theorem C4_counterexample : chunk_text [] 512 ≠ [] := by decide

/-- C4 amended: the empty text yields exactly one chunk, the empty
string, for every chunk-size limit: `''.split(' ')` is `['']`, the loop
turns the buffer into `" "`, which is truthy and is appended stripped. -/
theorem C4_amended (chunk_size : Nat) : chunk_text [] chunk_size = [[]] := by
  show chunkGo chunk_size [[]] [] = [[]]
  rw [chunkGo_cons_eq, if_pos (by simp), chunkGo_nil_eq, if_neg (by simp)]
  rfl

/-- C5: the record ids assigned by `process_text` are exactly
`{file_name}-chunk-{i}` for `i` ranging contiguously over `1 .. n`,
`n` the number of chunks, in order. -/
theorem C5_record_ids (emb : List Char → List Int) (text file_name : List Char) :
    (process_text emb text file_name).map VectorRecord.id =
      (List.range (chunk_text text 512).length).map
        (fun i => chunkId file_name (i + 1)) := by
  unfold process_text
  rw [List.map_map, List.enum_eq_zip_range]
  have h1 : (VectorRecord.id ∘ fun p : Nat × List Char =>
      store_in_pinecone (emb p.2) p.2 (chunkId file_name (p.1 + 1))) =
      (fun i : Nat => chunkId file_name (i + 1)) ∘ Prod.fst := rfl
  rw [h1, ← List.map_map, List.map_fst_zip _ _ (by simp)]

/-- C6: a raise in the provisioning block (the existence check or the
creation call) is logged and terminates the script with exit status 1
before any file is processed; when the index already exists, no creation
call is made and processing proceeds. -/
theorem C6_provisioning (emb : List Char → List Int)
    (existing : List (List Char)) (index_name : List Char)
    (listRaises createRaises : Bool)
    (files : List (List Char × Option (List Char))) :
    ((listRaises = true ∨ (index_name ∉ existing ∧ createRaises = true)) →
      (provisionIndex existing index_name listRaises createRaises).logged = true ∧
      (runScript emb existing index_name listRaises createRaises files).1 = some 1 ∧
      (runScript emb existing index_name listRaises createRaises files).2 =
        ⟨[], [], []⟩) ∧
    (listRaises = false → index_name ∈ existing →
      (provisionIndex existing index_name listRaises createRaises).createCalled
        = false ∧
      (runScript emb existing index_name listRaises createRaises files).1 = none ∧
      (runScript emb existing index_name listRaises createRaises files).2 =
        process_directory emb files) := by
  constructor
  · rintro (h | ⟨hnot, hcr⟩)
    · subst h
      exact ⟨rfl, rfl, rfl⟩
    · subst hcr
      by_cases hl : listRaises = true
      · subst hl
        exact ⟨rfl, rfl, rfl⟩
      · replace hl : listRaises = false := by revert hl; cases listRaises <;> simp
        subst hl
        simp [provisionIndex, runScript, hnot]
  · intro hl hmem
    subst hl
    simp [provisionIndex, runScript, hmem]

/-- Witness for C6: list-call raise exits with status 1; existing index
makes no creation call. -/
theorem C6_provisioning_witness :
    (runScript (fun _ => []) [] ['i'] true false []).1 = some 1 ∧
    (provisionIndex [['i']] ['i'] false false).createCalled = false :=
  ⟨((C6_provisioning (fun _ => []) [] ['i'] true false []).1 (Or.inl rfl)).2.1,
   ((C6_provisioning (fun _ => []) [['i']] ['i'] false false []).2 rfl
      (by decide)).1⟩

/-- C7: on the query path an empty embedding is detected and the store is
not queried; on the ingestion path no such check exists — every chunk's
embedding, empty or not, is passed through unchanged into the upserted
record, and no record is dropped. -/
theorem C7_empty_embedding_handling :
    (∀ (emb : List Char → List Int) (query : List Char),
      (emb query).length = 0 →
        search_in_pinecone emb query = SearchOutcome.failedEmbedding) ∧
    (∀ (emb : List Char → List Int) (text file_name : List Char)
      (r : VectorRecord), r ∈ process_text emb text file_name →
        r.values = emb r.text) ∧
    (∀ (emb : List Char → List Int) (text file_name : List Char),
      (process_text emb text file_name).length = (chunk_text text 512).length) := by
  refine ⟨?_, ?_, ?_⟩
  · intro emb query h
    unfold search_in_pinecone
    simp [h]
  · intro emb text file_name r hr
    unfold process_text at hr
    rw [List.mem_map] at hr
    obtain ⟨p, hp, hr⟩ := hr
    subst hr
    rfl
  · intro emb text file_name
    unfold process_text
    simp

/-- Witness for C7 with the constantly-empty embedding model. -/
theorem C7_empty_embedding_handling_witness :
    search_in_pinecone (fun _ => []) ['q'] = SearchOutcome.failedEmbedding ∧
    (⟨chunkId ['f'] 1, [], ['h', 'i']⟩ : VectorRecord).values =
      (fun _ => ([] : List Int))
        (⟨chunkId ['f'] 1, [], ['h', 'i']⟩ : VectorRecord).text :=
  ⟨C7_empty_embedding_handling.1 (fun _ => []) ['q'] rfl,
   C7_empty_embedding_handling.2.1 (fun _ => []) ['h', 'i'] ['f']
     ⟨chunkId ['f'] 1, [], ['h', 'i']⟩ (by decide)⟩

/-- C8: `process_directory` is unchanged by discarding the entries whose
`pathlib` suffix is not exactly `.txt` (they are never read, produce no
chunks or records, and log no error), and every name it reads or logs an
error for has the `.txt` suffix. -/
theorem C8_only_txt_processed (emb : List Char → List Int)
    (files : List (List Char × Option (List Char))) :
    process_directory emb files =
      process_directory emb (files.filter
        (fun f => pathSuffix f.1 == '.' :: 't' :: 'x' :: 't' :: [])) ∧
    (∀ n, n ∈ (process_directory emb files).processed ++
        (process_directory emb files).errors →
      pathSuffix n = '.' :: 't' :: 'x' :: 't' :: []) := by
  induction files with
  | nil => exact ⟨rfl, by intro n hn; simp [process_directory] at hn⟩
  | cons f rest ih =>
    obtain ⟨name, content⟩ := f
    by_cases hs : pathSuffix name = '.' :: 't' :: 'x' :: 't' :: []
    · have hb : (pathSuffix name == '.' :: 't' :: 'x' :: 't' :: []) = true := by
        simpa using hs
      constructor
      · cases content with
        | some data =>
          simp only [process_directory, hs, if_pos, List.filter_cons, hb,
            if_true]
          rw [ih.1]
        | none =>
          simp only [process_directory, hs, if_pos, List.filter_cons, hb,
            if_true]
          rw [ih.1]
      · intro n hn
        cases content with
        | some data =>
          simp only [process_directory, hs, if_pos, List.mem_append] at hn
          rcases hn with hn | hn
          · rcases List.mem_cons.mp hn with h1 | h1
            · subst h1; exact hs
            · exact ih.2 n (List.mem_append.mpr (Or.inl h1))
          · exact ih.2 n (List.mem_append.mpr (Or.inr hn))
        | none =>
          simp only [process_directory, hs, if_pos, List.mem_append] at hn
          rcases hn with hn | hn
          · exact ih.2 n (List.mem_append.mpr (Or.inl hn))
          · rcases List.mem_cons.mp hn with h1 | h1
            · subst h1; exact hs
            · exact ih.2 n (List.mem_append.mpr (Or.inr h1))
    · have hb : (pathSuffix name == '.' :: 't' :: 'x' :: 't' :: []) = false := by
        simpa using hs
      have hskip : process_directory emb ((name, content) :: rest) =
          process_directory emb rest := by
        simp [process_directory, hs]
      constructor
      · rw [hskip, List.filter_cons, hb]
        exact ih.1
      · intro n hn
        rw [hskip] at hn
        exact ih.2 n hn

/-- Witness for C8 on a directory with one `.txt` and one `.pdf` entry. -/
theorem C8_only_txt_processed_witness :
    pathSuffix ['a', '.', 't', 'x', 't'] = '.' :: 't' :: 'x' :: 't' :: [] :=
  (C8_only_txt_processed (fun _ => [])
      [(['a', '.', 't', 'x', 't'], some ['h', 'i']),
       (['b', '.', 'p', 'd', 'f'], some ['x'])]).2
    ['a', '.', 't', 'x', 't'] (by decide)

/-- C9 counterexample: on text `"ab "` with limit 2 the chunks are
`["ab", ""]` — an empty-string chunk occurs in a non-first position. -/
theorem C9_counterexample :
    chunk_text ['a', 'b', ' '] 2 = [['a', 'b'], []] ∧
    [] ∈ (chunk_text ['a', 'b', ' '] 2).tail := by decide

/-- C9 amended: when the first word is longer than the limit, the result
starts with the empty-string chunk immediately followed by a chunk
holding that word alone; but an empty-string chunk is not confined to
the first position (see the counterexample). -/
theorem C9_amended (text : List Char) (chunk_size : Nat) (w1 : List Char)
    (rest' : List (List Char))
    (hsplit : pySplit (fun c => c == ' ') text = w1 :: rest')
    (hlong : chunk_size < w1.length) :
    ∃ rest, chunk_text text chunk_size = [] :: pyStrip w1 :: rest := by
  unfold chunk_text
  rw [hsplit, chunkGo_cons_eq, if_neg (by simp; omega)]
  show ∃ rest, pyStrip [] :: chunkGo chunk_size rest' (w1 ++ [' ']) = _
  rw [pyStrip_nil]
  cases rest' with
  | nil =>
    refine ⟨[], ?_⟩
    rw [chunkGo_nil_eq, if_neg (by simp), pyStrip_append_ws w1 ' ' (by decide)]
  | cons w2 rest'' =>
    refine ⟨chunkGo chunk_size rest'' (w2 ++ [' ']), ?_⟩
    rw [chunkGo_cons_eq, if_neg (by simp; omega),
      pyStrip_append_ws w1 ' ' (by decide)]

/-- Witness for C9 amended at text `"abc"`, limit 2. -/
theorem C9_amended_witness :
    ∃ rest, chunk_text ['a', 'b', 'c'] 2 = [] :: pyStrip ['a', 'b', 'c'] :: rest :=
  C9_amended ['a', 'b', 'c'] 2 ['a', 'b', 'c'] [] (by decide) (by decide)

/-- C10: every chunk returned by `chunk_text` is a fixpoint of stripping,
i.e. it has no leading or trailing whitespace. -/
theorem C10_chunks_stripped (text : List Char) (chunk_size : Nat)
    (c : List Char) (hc : c ∈ chunk_text text chunk_size) : pyStrip c = c := by
  unfold chunk_text at hc
  obtain ⟨s, hs⟩ := chunkGo_emitted_stripped chunk_size _ [] c hc
  subst hs
  exact pyStrip_idem s

/-- Witness for C10 at text `"x y"`, limit 5. -/
theorem C10_chunks_stripped_witness : pyStrip ['x', ' ', 'y'] = ['x', ' ', 'y'] :=
  C10_chunks_stripped ['x', ' ', 'y'] 5 ['x', ' ', 'y'] (by decide)

end Vidhyarthi
